import Mathlib

/-!
Shallow embedding of the audio pipeline core of `streamtotext/audio.py`:
the chunk data model and utilities, the fixed-size resegmenting iterator
(`EvenChunkIterator`), the sliding-window buffer (`RememberingIterator`),
the block iteration state, the rate-converter block, and the squelch
(voice-activity) processor with its calibration and hysteresis logic.

Python exceptions are modelled with an explicit error type; byte strings
are lists of naturals below 256; timestamps and numeric thresholds are
rationals; `audioop.rms` raises `audioop.error` on an unsupported sample
width or a fragment that is not a whole number of frames, and otherwise
computes an integer Newton square root of the mean square.
-/

set_option autoImplicit false

deriving instance DecidableEq for Except

namespace STT

/-- Exceptions raised by the modelled code paths: `StopAsyncIteration`
(normal stream exhaustion), `AssertionError` (failed `assert`),
`IndexError` (out-of-range list indexing), and `audioop.error` (invalid
parameters passed to an `audioop` primitive). -/
inductive PyExc where
  | stopAsyncIteration
  | assertionError
  | indexError
  | audioopError
  deriving DecidableEq, Repr

/-- The `AudioChunk` namedtuple: a start timestamp, raw audio bytes,
bytes per sample, and sampling frequency. -/
structure AudioChunk where
  start_time : ℚ
  audio : List ℕ
  width : ℕ
  freq : ℕ
  deriving DecidableEq, Repr

/-- Model of `chunk_sample_cnt`: `int(len(chunk.audio) / chunk.width)`. -/
def chunk_sample_cnt (c : AudioChunk) : ℕ :=
  c.audio.length / c.width

/-- Model of `merge_chunks`: asserts the list is non-empty, concatenates
the audio bytes, and keeps the `start_time`, `width` and `freq` of the
first chunk. -/
def merge_chunks (chunks : List AudioChunk) : Except PyExc AudioChunk :=
  match chunks with
  | [] => .error .assertionError
  | c :: _ => .ok ⟨c.start_time, (chunks.map fun x => x.audio).flatten, c.width, c.freq⟩

/-- Model of `split_chunk`: splits at byte offset `sample_offset * width`; both
halves keep the original `start_time`, `width` and `freq`. -/
def split_chunk (c : AudioChunk) (sample_offset : ℕ) : AudioChunk × AudioChunk :=
  let offset := sample_offset * c.width
  (⟨c.start_time, c.audio.take offset, c.width, c.freq⟩,
   ⟨c.start_time, c.audio.drop offset, c.width, c.freq⟩)

/-- Well-formed chunk of sample width `w`: the recorded width is `w` and
the byte length is a multiple of the width (spec §3 invariant). -/
def chunkWF (w : ℕ) (c : AudioChunk) : Prop :=
  c.width = w ∧ w ∣ c.audio.length

instance (w : ℕ) (c : AudioChunk) : Decidable (chunkWF w c) := by
  unfold chunkWF; infer_instance

/-- Total number of samples across a list of chunks. -/
def totalSamples (chunks : List AudioChunk) : ℕ :=
  (chunks.map chunk_sample_cnt).sum

/-- Samples pending in an `EvenChunkIterator` state: the primed current
chunk (if any) plus the not-yet-pulled upstream chunks. -/
def pendingSamples (cur : Option AudioChunk) (upstream : List AudioChunk) : ℕ :=
  totalSamples (cur.toList ++ upstream)

/-- The accumulation loop of `EvenChunkIterator.__anext__` after the primed
current chunk has been consumed: `queue` is `sample_queue`, `retSize` is
`ret_chunk_size`, and the upstream iterator is the list of chunks it will
still produce.  Returns the yielded chunk, the leftover primed chunk, and
the remaining upstream, or the raised exception. -/
def ecLoopNone (csize : ℕ) :
    List AudioChunk → List AudioChunk → ℕ →
      Except PyExc (AudioChunk × Option AudioChunk × List AudioChunk)
  | [], queue, retSize =>
    if retSize < csize then
      .error .stopAsyncIteration
    else
      match merge_chunks queue with
      | .error e => .error e
      | .ok m => .ok (m, none, [])
  | c :: up, queue, retSize =>
    if retSize < csize then
      let ret' := retSize + chunk_sample_cnt c
      let queue' := queue ++ [c]
      if csize < ret' then
        match merge_chunks queue' with
        | .error e => .error e
        | .ok m => .ok ((split_chunk m csize).1, some (split_chunk m csize).2, up)
      else
        ecLoopNone csize up queue' ret'
    else
      match merge_chunks queue with
      | .error e => .error e
      | .ok m => .ok (m, none, c :: up)

/-- One call of `EvenChunkIterator.__anext__`: the primed current chunk is
consumed first (the `self._cur_chunk or await ...` line), then the loop
continues on the upstream. -/
def ecNext (csize : ℕ) (cur : Option AudioChunk) (upstream : List AudioChunk) :
    Except PyExc (AudioChunk × Option AudioChunk × List AudioChunk) :=
  match cur with
  | none => ecLoopNone csize upstream [] 0
  | some c =>
    if 0 < csize then
      let n := chunk_sample_cnt c
      if csize < n then
        match merge_chunks [c] with
        | .error e => .error e
        | .ok m => .ok ((split_chunk m csize).1, some (split_chunk m csize).2, upstream)
      else
        ecLoopNone csize upstream [c] n
    else
      match merge_chunks ([] : List AudioChunk) with
      | .error e => .error e
      | .ok m => .ok (m, none, upstream)

/-- All chunks yielded by repeatedly calling `EvenChunkIterator.__anext__`
until it raises; `fuel` bounds the number of calls. -/
def ecOutputs (csize : ℕ) : ℕ → Option AudioChunk → List AudioChunk → List AudioChunk
  | 0, _, _ => []
  | fuel + 1, cur, upstream =>
    match ecNext csize cur upstream with
    | .error _ => []
    | .ok (c, cur', up') => c :: ecOutputs csize fuel cur' up'

/-- The last `n` elements of a list. -/
def lastN {α : Type} (n : ℕ) (l : List α) : List α :=
  l.drop (l.length - n)

/-- Appending one element to a `collections.deque(maxlen := n)`: the new
element goes to the back and only the last `n` elements are retained. -/
def riPush {α : Type} (n : ℕ) (buff : List α) (x : α) : List α :=
  lastN n (buff ++ [x])

/-- State of a `RememberingIterator`: the chunks its upstream iterator will
still produce and the bounded deque `_buff` of recently produced items. -/
structure RIState where
  pending : List AudioChunk
  buff : List AudioChunk
  deriving DecidableEq, Repr

/-- Model of `RememberingIterator.__anext__`: pull the next upstream item, append it
to the bounded buffer, and return it; `none` models `StopAsyncIteration`. -/
def riNext (n : ℕ) (s : RIState) : Option (AudioChunk × RIState) :=
  match s.pending with
  | [] => none
  | c :: rest => some (c, ⟨rest, riPush n s.buff c⟩)

/-- Model of `RememberingIterator.memory`: returns the buffer contents together with
the (unchanged) iterator state. -/
def riMemory (s : RIState) : List AudioChunk × RIState :=
  (s.buff, s)

/-- Run `k` steps of a `RememberingIterator` (stopping early on upstream
exhaustion). -/
def riRunState (n : ℕ) (s : RIState) : ℕ → RIState
  | 0 => s
  | k + 1 =>
    match riNext n s with
    | none => s
    | some (_, s') => riRunState n s' k

/-- Newton iteration for the integer square root, with explicit fuel. -/
def isqrtAux (n : ℕ) : ℕ → ℕ → ℕ
  | 0, guess => guess
  | fuel + 1, guess =>
    let next := (guess + n / guess) / 2
    if next < guess then isqrtAux n fuel next else guess

/-- Integer square root (the `int(sqrt(...))` of `audioop.rms`). -/
def isqrt (n : ℕ) : ℕ :=
  if n ≤ 1 then n else isqrtAux n n (n / 2)

/-- Little-endian value of a group of bytes. -/
def leVal (g : List ℕ) : ℕ :=
  g.foldr (fun b acc => b + 256 * acc) 0

/-- Signed (two-complement) interpretation of a `w`-byte value. -/
def signedVal (w : ℕ) (v : ℕ) : ℤ :=
  if 2 * v < 256 ^ w then (v : ℤ) else (v : ℤ) - 256 ^ w

/-- Split a byte string into consecutive groups of `w` bytes (any
incomplete trailing group is not produced); fueled for structural
recursion. -/
def byteGroupsAux (w : ℕ) : ℕ → List ℕ → List (List ℕ)
  | 0, _ => []
  | fuel + 1, bs =>
    if 0 < w ∧ w ≤ bs.length then bs.take w :: byteGroupsAux w fuel (bs.drop w)
    else []

/-- The signed samples encoded by a byte string of sample width `w`. -/
def byteSamples (w : ℕ) (bs : List ℕ) : List ℤ :=
  (byteGroupsAux w bs.length bs).map fun g => signedVal w (leVal g)

/-- Model of `audioop.rms(fragment, width)`: raises `audioop.error` when
the width is not 1, 2, 3 or 4 (the sizes the `audioop` of Python 3.4+,
which this source requires, accepts) or when the fragment is not a whole
number of frames; otherwise returns 0 on an empty fragment, else the
integer square root of the mean of the squared samples. -/
def audioop_rms (w : ℕ) (bs : List ℕ) : Except PyExc ℕ :=
  if w < 1 ∨ 4 < w then .error .audioopError
  else if bs.length % w ≠ 0 then .error .audioopError
  else
    let ss := byteSamples w bs
    if ss.length = 0 then .ok 0
    else .ok (isqrt ((ss.map fun s => (s * s).toNat).sum / ss.length))

/-- Left-to-right RMS measurement of a list of chunks at a per-chunk
width, propagating the first `audioop.error` (the evaluation order of a
Python list comprehension over `audioop.rms`). -/
def mapRms (widthOf : AudioChunk → ℕ) : List AudioChunk → Except PyExc (List ℕ)
  | [] => .ok []
  | c :: cs =>
    match audioop_rms (widthOf c) c.audio with
    | .error e => .error e
    | .ok v =>
      match mapRms widthOf cs with
      | .error e => .error e
      | .ok vs => .ok (v :: vs)

/-- The RMS list `check_squelch` computes: each chunk measured at its own
recorded width. -/
def rmsList (chunks : List AudioChunk) : Except PyExc (List ℕ) :=
  mapRms (fun c => c.width) chunks

/-- Python `sorted` on naturals (ascending). -/
def sortAsc (l : List ℕ) : List ℕ :=
  l.insertionSort (· ≤ ·)

/-- Model of `SquelchedSource.check_squelch(level, is_triggered, chunks)`: per-chunk
RMS (propagating any `audioop.error`), median at index `int(len * .5)` of
the sorted values (`IndexError` when the list is empty), then the
hysteresis comparison: while triggered, stay triggered unless the median
falls strictly below `0.8 * level`; while silent, trigger when the median
strictly exceeds `level`. -/
def check_squelch (level : ℚ) (is_triggered : Bool) (chunks : List AudioChunk) :
    Except PyExc Bool :=
  match rmsList chunks with
  | .error e => .error e
  | .ok rms_vals =>
    match (sortAsc rms_vals)[rms_vals.length / 2]? with
    | none => .error .indexError
    | some median_rms =>
      if is_triggered then
        if (median_rms : ℚ) < level * (4 / 5) then .ok false else .ok true
      else
        if level < (median_rms : ℚ) then .ok true else .ok false

/-- The median value `check_squelch` inspects, given the RMS values of the
window. -/
def medianOf (vals : List ℕ) : ℕ :=
  (sortAsc vals).getD (vals.length / 2) 0

/-- Drive `check_squelch` over a sequence of evaluation windows, recording
the squelch state after each window (stopping if it raises). -/
def squelchStates (level : ℚ) : Bool → List (List AudioChunk) → List Bool
  | _, [] => []
  | s, w :: ws =>
    match check_squelch level s w with
    | .ok s' => s' :: squelchStates level s' ws
    | .error _ => []

/-- The RMS values kept by `detect_squelch_level`: chunks whose byte length
is not exactly `sample_size * sample_width` are discarded, the rest are
measured with `audioop.rms` at the configured sample width, propagating
any `audioop.error`. -/
def calibRmsVals (sample_size sample_width : ℕ) (chunks : List AudioChunk) :
    Except PyExc (List ℕ) :=
  mapRms (fun _ => sample_width)
    (chunks.filter fun x => x.audio.length = sample_size * sample_width)

/-- The selection step of `SquelchedSource.detect_squelch_level` on the
collected chunks: `sorted(rms_vals)[int(threshold * len(rms_vals)):][0]`,
raising `IndexError` when the slice is empty. -/
def detect_squelch_level (sample_size sample_width : ℕ) (threshold : ℚ)
    (chunks : List AudioChunk) : Except PyExc ℕ :=
  match calibRmsVals sample_size sample_width chunks with
  | .error e => .error e
  | .ok rms_vals =>
    match (sortAsc rms_vals).drop (Int.toNat ⌊threshold * rms_vals.length⌋) with
    | [] => .error .indexError
    | v :: _ => .ok v

/-- Model of `SquelchedSource.start`: `assert(self.squelch_level is not None)`. -/
def squelched_start (squelch_level : Option ℚ) : Except PyExc Unit :=
  match squelch_level with
  | none => .error .assertionError
  | some _ => .ok ()

/-- State of a `SquelchedBlock`: the `_sent_mem` flag, the wrapped
`RememberingIterator`, and the squelch level. -/
structure SBState where
  sent_mem : Bool
  src : RIState
  level : ℚ
  deriving DecidableEq, Repr

/-- The scan loop of `SquelchedSource._next_block`: pull re-segmented
chunks through the remembering iterator with window capacity `n` until
`check_squelch(level, False, memory)` fires, then hand the iterator to a
fresh `SquelchedBlock`; raises `StopAsyncIteration` if the upstream ends
first. -/
def squelchScan (level : ℚ) (n : ℕ) :
    List AudioChunk → List AudioChunk → Except PyExc SBState
  | [], _ => .error .stopAsyncIteration
  | c :: rest, buff =>
    let buff' := riPush n buff c
    match check_squelch level false buff' with
    | .error e => .error e
    | .ok true => .ok ⟨false, ⟨rest, buff'⟩, level⟩
    | .ok false => squelchScan level n rest buff'

/-- Model of `SquelchedBlock._next_chunk`: on the first call return the merged
contents of the pre-roll window; afterwards stream upstream chunks while
the de-trigger condition has not been met, raising `StopAsyncIteration`
the moment it is (or when the upstream ends). -/
def sbNextChunk (n : ℕ) (b : SBState) : Except PyExc (AudioChunk × SBState) :=
  if b.sent_mem = false then
    match merge_chunks b.src.buff with
    | .error e => .error e
    | .ok m => .ok (m, ⟨true, b.src, b.level⟩)
  else
    match riNext n b.src with
    | none => .error .stopAsyncIteration
    | some (c, src') =>
      match check_squelch b.level true src'.buff with
      | .error e => .error e
      | .ok true => .ok (c, ⟨b.sent_mem, src', b.level⟩)
      | .ok false => .error .stopAsyncIteration

/-- Sequential state of an `AudioBlock`: the `_stopped` event and the
chunks its producer will still deliver. -/
structure ABlock where
  stopped : Bool
  chunks : List AudioChunk
  deriving DecidableEq, Repr

/-- Model of `AudioBlock.end`: set the stopped event. -/
def blockEnd (b : ABlock) : ABlock :=
  ⟨true, b.chunks⟩

/-- Model of `AudioBlock.__anext__` (sequential semantics): raise immediately when
the block has ended; on producer exhaustion call `end` and raise;
otherwise deliver the next chunk. -/
def blockNext (b : ABlock) : Except PyExc AudioChunk × ABlock :=
  if b.stopped then (.error .stopAsyncIteration, b)
  else
    match b.chunks with
    | [] => (.error .stopAsyncIteration, ⟨true, []⟩)
    | c :: rest => (.ok c, ⟨b.stopped, rest⟩)

/-- The operations a consumer or owner can perform on a block. -/
inductive BlockOp where
  | opEnd
  | opNext
  deriving DecidableEq, Repr

/-- Apply a block operation to the block state. -/
def applyOp : BlockOp → ABlock → ABlock
  | .opEnd, b => blockEnd b
  | .opNext, b => (blockNext b).2

/-- Model of `_RateConvertBlock._next_chunk`, parametric in the `audioop.ratecv`
resampler (argument order: fragment, width, nchannels, inrate, outrate,
state): pull a chunk from the wrapped block, convert it with the stored
filter state, store the returned state, and emit the converted audio with
the original `start_time`, width 2 and the target rate. -/
def rcNextChunk {σ : Type} (ratecv : List ℕ → ℕ → ℕ → ℕ → ℕ → Option σ → List ℕ × σ)
    (nch outRate : ℕ) (src : List AudioChunk) (st : Option σ) :
    Option (AudioChunk × List AudioChunk × Option σ) :=
  match src with
  | [] => none
  | c :: rest =>
    let r := ratecv c.audio 2 nch c.freq outRate st
    some (⟨c.start_time, r.1, 2, outRate⟩, rest, some r.2)

/-- Iterate `_RateConvertBlock._next_chunk` until the wrapped block is
exhausted, collecting the emitted chunks. -/
def rcRun {σ : Type} (ratecv : List ℕ → ℕ → ℕ → ℕ → ℕ → Option σ → List ℕ × σ)
    (nch outRate : ℕ) : ℕ → List AudioChunk → Option σ → List AudioChunk
  | 0, _, _ => []
  | fuel + 1, src, st =>
    match rcNextChunk ratecv nch outRate src st with
    | none => []
    | some (c, rest, st') => c :: rcRun ratecv nch outRate fuel rest st'

/-- Modelled from the spec (§4.6), for comparison with `rcRun`: convert the
chunks of one block in order, threading the resampler filter state produced
by each conversion into the next, never resetting it within the block. -/
def rcThreadedSpec {σ : Type} (ratecv : List ℕ → ℕ → ℕ → ℕ → ℕ → Option σ → List ℕ × σ)
    (nch outRate : ℕ) : Option σ → List AudioChunk → List AudioChunk
  | _, [] => []
  | st, c :: rest =>
    let r := ratecv c.audio 2 nch c.freq outRate st
    ⟨c.start_time, r.1, 2, outRate⟩ :: rcThreadedSpec ratecv nch outRate (some r.2) rest

/-- A chunk holding one signed 16-bit little-endian sample of value `v`
(for `v < 32768`). -/
def sampleChunk (v : ℕ) : AudioChunk :=
  ⟨0, [v % 256, v / 256], 2, 16000⟩

/-- A 100-sample chunk of silence at width 2 (200 zero bytes). -/
def chunk100 : AudioChunk :=
  ⟨0, List.replicate 200 0, 2, 16000⟩

/-- Upstream of the resegmentation scenario from the spec: three chunks of
100 samples each at width 2. -/
def scenarioUpstream : List AudioChunk :=
  [chunk100, chunk100, chunk100]

/-- Singleton evaluation windows whose median RMS values are
`[50, 95, 120, 85, 70]`, i.e. `[0.5L, 0.95L, 1.2L, 0.85L, 0.7L]` for
`L = 100`. -/
def scenarioWindows : List (List AudioChunk) :=
  [[sampleChunk 50], [sampleChunk 95], [sampleChunk 120], [sampleChunk 85], [sampleChunk 70]]

/-- Calibration scenario chunks: ten single-sample chunks with RMS values
`10, 20, ..., 100` (in scrambled order) plus one chunk of the wrong byte
length (4 bytes instead of `1 * 2`) that must be discarded. -/
def calibChunks : List AudioChunk :=
  [sampleChunk 30, sampleChunk 10, sampleChunk 100, ⟨0, [0, 100, 0, 100], 2, 16000⟩,
   sampleChunk 50, sampleChunk 20, sampleChunk 90, sampleChunk 60, sampleChunk 40,
   sampleChunk 80, sampleChunk 70]

/-- A concrete resampler for exercising the rate-converter block: it keeps
the audio unchanged and counts in its state how many chunks it has
converted so far. -/
def demoRatecv : List ℕ → ℕ → ℕ → ℕ → ℕ → Option ℕ → List ℕ × ℕ :=
  fun aud _ _ _ _ st => (aud, st.getD 0 + 1)

/-- A two-chunk source block for the rate-converter demonstration. -/
def demoSrc : List AudioChunk :=
  [sampleChunk 1, sampleChunk 2]

/-- The squelched block produced by scanning one loud chunk (RMS 100)
against level 10 with a window of capacity 1. -/
def demoSB : SBState :=
  ⟨false, ⟨[], [sampleChunk 100]⟩, 10⟩

/-- A chunk satisfying the chunk invariant (five bytes at a recorded width
of five, one sample) whose width is outside the sizes `audioop` accepts,
so `audioop.rms` raises on it. -/
def badWidthChunk : AudioChunk :=
  ⟨0, List.replicate 5 0, 5, 16000⟩

theorem lastN_of_le {α : Type} {n : ℕ} {l : List α} (h : l.length ≤ n) : lastN n l = l := by
  simp [lastN, Nat.sub_eq_zero_of_le h]

theorem length_lastN_le {α : Type} (n : ℕ) (l : List α) : (lastN n l).length ≤ n := by
  simp only [lastN, List.length_drop]
  omega

theorem lastN_lastN_append {α : Type} (n : ℕ) (l r : List α) :
    lastN n (lastN n l ++ r) = lastN n (l ++ r) := by
  unfold lastN
  rw [List.drop_append_eq_append_drop, List.drop_append_eq_append_drop, List.drop_drop]
  have hl : (List.drop (l.length - n) l).length = l.length - (l.length - n) :=
    List.length_drop _ _
  congr 1
  · congr 1
    simp only [List.length_append, List.length_drop]
    omega
  · congr 1
    simp only [List.length_append, List.length_drop]
    omega

theorem riPush_length_le {α : Type} (n : ℕ) (b : List α) (x : α) :
    (riPush n b x).length ≤ n :=
  length_lastN_le n (b ++ [x])

theorem foldl_riPush {α : Type} (n : ℕ) :
    ∀ (xs b : List α), b.length ≤ n →
      List.foldl (riPush n) b xs = lastN n (b ++ xs)
  | [], b, h => by simp [lastN_of_le h]
  | x :: xs, b, h => by
    rw [List.foldl_cons, foldl_riPush n xs (riPush n b x) (riPush_length_le n b x)]
    unfold riPush
    rw [lastN_lastN_append]
    simp

theorem riRunState_buff (n : ℕ) :
    ∀ (k : ℕ) (xs buff : List AudioChunk), k ≤ xs.length →
      (riRunState n ⟨xs, buff⟩ k).buff = List.foldl (riPush n) buff (xs.take k)
  | 0, xs, buff, _ => by simp [riRunState]
  | k + 1, [], buff, h => by simp at h
  | k + 1, x :: xs, buff, h => by
    simp only [riRunState, riNext]
    rw [riRunState_buff n k xs (riPush n buff x) (by simpa using h)]
    simp

theorem chunkWF_len {w : ℕ} {c : AudioChunk} (h : chunkWF w c) :
    c.audio.length = w * chunk_sample_cnt c := by
  obtain ⟨hw, hd⟩ := h
  rw [chunk_sample_cnt, hw, Nat.mul_div_cancel' hd]

theorem totalSamples_nil : totalSamples [] = 0 := rfl

theorem totalSamples_cons (c : AudioChunk) (l : List AudioChunk) :
    totalSamples (c :: l) = chunk_sample_cnt c + totalSamples l := by
  simp [totalSamples]

theorem totalSamples_append (l1 l2 : List AudioChunk) :
    totalSamples (l1 ++ l2) = totalSamples l1 + totalSamples l2 := by
  simp [totalSamples]

theorem pendingSamples_none (up : List AudioChunk) :
    pendingSamples none up = totalSamples up := by
  simp [pendingSamples]

theorem pendingSamples_some (c : AudioChunk) (up : List AudioChunk) :
    pendingSamples (some c) up = chunk_sample_cnt c + totalSamples up := by
  simp [pendingSamples, totalSamples]

theorem audio_lengths_sum {w : ℕ} :
    ∀ (q : List AudioChunk), (∀ c ∈ q, chunkWF w c) →
      ((q.map fun x => x.audio).map List.length).sum = w * totalSamples q
  | [], _ => by simp [totalSamples]
  | c :: cs, h => by
    have hc := chunkWF_len (h c (List.mem_cons_self c cs))
    have ih := audio_lengths_sum cs (fun x hx => h x (List.mem_cons_of_mem c hx))
    simp only [List.map_cons, List.sum_cons, ih, totalSamples_cons, hc]
    ring

theorem merge_chunks_wf {w : ℕ} (hw : 0 < w) (q : List AudioChunk)
    (hne : q ≠ []) (hq : ∀ c ∈ q, chunkWF w c) :
    ∃ m, merge_chunks q = .ok m ∧ chunkWF w m ∧ chunk_sample_cnt m = totalSamples q := by
  match q with
  | [] => exact absurd rfl hne
  | c :: cs =>
    have hcw : c.width = w := (hq c (List.mem_cons_self c cs)).1
    refine ⟨_, rfl, ?_, ?_⟩
    · constructor
      · exact hcw
      · simp only [List.length_flatten, audio_lengths_sum (c :: cs) hq]
        exact Dvd.intro _ rfl
    · simp only [chunk_sample_cnt, List.length_flatten, audio_lengths_sum (c :: cs) hq, hcw]
      exact Nat.mul_div_cancel_left _ hw

theorem split_chunk_wf {w : ℕ} (hw : 0 < w) {c : AudioChunk} (hc : chunkWF w c)
    {k : ℕ} (hk : k ≤ chunk_sample_cnt c) :
    chunkWF w (split_chunk c k).1 ∧ chunkWF w (split_chunk c k).2 ∧
    chunk_sample_cnt (split_chunk c k).1 = k ∧
    chunk_sample_cnt (split_chunk c k).2 = chunk_sample_cnt c - k := by
  have hcw : c.width = w := hc.1
  have hcomm : k * w = w * k := Nat.mul_comm k w
  have hlen : c.audio.length = w * k + w * (chunk_sample_cnt c - k) := by
    rw [chunkWF_len hc, ← Nat.mul_add, Nat.add_sub_cancel' hk]
  have h1len : ((split_chunk c k).1).audio.length = k * w := by
    simp only [split_chunk, hcw, List.length_take]
    omega
  have h2len : ((split_chunk c k).2).audio.length = w * (chunk_sample_cnt c - k) := by
    simp only [split_chunk, hcw, List.length_drop]
    omega
  have h1cnt : chunk_sample_cnt (split_chunk c k).1 =
      ((split_chunk c k).1).audio.length / w := by
    simp [chunk_sample_cnt, split_chunk, hcw]
  have h2cnt : chunk_sample_cnt (split_chunk c k).2 =
      ((split_chunk c k).2).audio.length / w := by
    simp [chunk_sample_cnt, split_chunk, hcw]
  refine ⟨⟨by simp [split_chunk, hcw], ?_⟩, ⟨by simp [split_chunk, hcw], ?_⟩, ?_, ?_⟩
  · rw [h1len]; exact Dvd.intro_left _ rfl
  · rw [h2len]; exact Dvd.intro _ rfl
  · rw [h1cnt, h1len]
    exact Nat.mul_div_cancel _ hw
  · rw [h2cnt, h2len]
    exact Nat.mul_div_cancel_left _ hw

theorem ecLoopNone_err (csize : ℕ) :
    ∀ (upstream queue : List AudioChunk) (retSize : ℕ),
      retSize + totalSamples upstream < csize →
      ecLoopNone csize upstream queue retSize = .error .stopAsyncIteration
  | [], queue, retSize, h => by
    rw [totalSamples_nil] at h
    simp only [ecLoopNone]
    rw [if_pos (by omega)]
  | c :: up, queue, retSize, h => by
    rw [totalSamples_cons] at h
    simp only [ecLoopNone]
    rw [if_pos (by omega), if_neg (by omega)]
    exact ecLoopNone_err csize up (queue ++ [c]) (retSize + chunk_sample_cnt c) (by omega)

theorem ecLoopNone_ok {w : ℕ} (hw : 0 < w) {csize : ℕ} (hcs : 0 < csize) :
    ∀ (upstream queue : List AudioChunk) (retSize : ℕ),
      (∀ c ∈ queue, chunkWF w c) → (∀ c ∈ upstream, chunkWF w c) →
      totalSamples queue = retSize → retSize ≤ csize →
      csize ≤ retSize + totalSamples upstream →
      ∃ out cur' up',
        ecLoopNone csize upstream queue retSize = .ok (out, cur', up') ∧
        chunk_sample_cnt out = csize ∧
        (∀ c ∈ cur'.toList ++ up', chunkWF w c) ∧
        pendingSamples cur' up' + csize = retSize + totalSamples upstream
  | [], queue, retSize, hq, _, htot, hle, hge => by
    rw [totalSamples_nil] at hge
    have heq : retSize = csize := le_antisymm hle (by omega)
    have hne : queue ≠ [] := by
      intro hnil
      rw [hnil, totalSamples_nil] at htot
      omega
    obtain ⟨m, hm, hmwf, hmcnt⟩ := merge_chunks_wf hw queue hne hq
    refine ⟨m, none, [], ?_, ?_, ?_, ?_⟩
    · simp only [ecLoopNone]
      rw [if_neg (by omega), hm]
    · omega
    · simp
    · rw [pendingSamples_none, totalSamples_nil]
      omega
  | c :: up, queue, retSize, hq, hup, htot, hle, hge => by
    rw [totalSamples_cons] at hge
    by_cases hrl : retSize < csize
    · have hcwf : chunkWF w c := hup c (List.mem_cons_self c up)
      have hupt : ∀ x ∈ up, chunkWF w x := fun x hx => hup x (List.mem_cons_of_mem c hx)
      have hq' : ∀ x ∈ queue ++ [c], chunkWF w x := by
        intro x hx
        rcases List.mem_append.1 hx with h1 | h1
        · exact hq x h1
        · rw [List.mem_singleton.1 h1]; exact hcwf
      have htot' : totalSamples (queue ++ [c]) = retSize + chunk_sample_cnt c := by
        rw [totalSamples_append, totalSamples_cons, totalSamples_nil, htot]
        omega
      by_cases hsp : csize < retSize + chunk_sample_cnt c
      · have hne : queue ++ [c] ≠ [] := by simp
        obtain ⟨m, hm, hmwf, hmcnt⟩ := merge_chunks_wf hw (queue ++ [c]) hne hq'
        have hkm : csize ≤ chunk_sample_cnt m := by rw [hmcnt, htot']; omega
        obtain ⟨hwf1, hwf2, hcnt1, hcnt2⟩ := split_chunk_wf hw hmwf hkm
        refine ⟨(split_chunk m csize).1, some (split_chunk m csize).2, up, ?_, hcnt1, ?_, ?_⟩
        · simp only [ecLoopNone]
          rw [if_pos hrl, if_pos hsp, hm]
        · intro x hx
          rcases List.mem_append.1 hx with h1 | h1
          · have hx2 : x = (split_chunk m csize).2 := by simpa using h1
            rw [hx2]; exact hwf2
          · exact hupt x h1
        · rw [pendingSamples_some, hcnt2, hmcnt, htot', totalSamples_cons]
          omega
      · obtain ⟨out, cur', up', heq, hcnt, hwf, hpend⟩ :=
          ecLoopNone_ok hw hcs up (queue ++ [c]) (retSize + chunk_sample_cnt c)
            hq' hupt htot' (by omega) (by omega)
        refine ⟨out, cur', up', ?_, hcnt, hwf, ?_⟩
        · simp only [ecLoopNone]
          rw [if_pos hrl, if_neg hsp]
          exact heq
        · rw [hpend, totalSamples_cons]; omega
    · have heq : retSize = csize := le_antisymm hle (by omega)
      have hne : queue ≠ [] := by
        intro hnil
        rw [hnil, totalSamples_nil] at htot
        omega
      obtain ⟨m, hm, hmwf, hmcnt⟩ := merge_chunks_wf hw queue hne hq
      refine ⟨m, none, c :: up, ?_, ?_, ?_, ?_⟩
      · simp only [ecLoopNone]
        rw [if_neg hrl, hm]
      · omega
      · simpa using hup
      · rw [pendingSamples_none, totalSamples_cons]
        omega

theorem ecNext_ok {w : ℕ} (hw : 0 < w) {csize : ℕ} (hcs : 0 < csize)
    (cur : Option AudioChunk) (upstream : List AudioChunk)
    (hcur : ∀ c ∈ cur.toList, chunkWF w c) (hup : ∀ c ∈ upstream, chunkWF w c)
    (h : csize ≤ pendingSamples cur upstream) :
    ∃ out cur' up',
      ecNext csize cur upstream = .ok (out, cur', up') ∧
      chunk_sample_cnt out = csize ∧
      (∀ c ∈ cur'.toList ++ up', chunkWF w c) ∧
      pendingSamples cur' up' + csize = pendingSamples cur upstream := by
  match cur with
  | none =>
    rw [pendingSamples_none] at h ⊢
    obtain ⟨out, cur', up', heq, hcnt, hwf, hpend⟩ :=
      ecLoopNone_ok hw hcs upstream [] 0 (by simp) hup rfl (by omega) (by omega)
    exact ⟨out, cur', up', heq, hcnt, hwf, by omega⟩
  | some c =>
    have hcwf : chunkWF w c := hcur c (by simp)
    rw [pendingSamples_some] at h ⊢
    by_cases hbig : csize < chunk_sample_cnt c
    · obtain ⟨m, hm, hmwf, hmcnt⟩ := merge_chunks_wf hw [c] (by simp) (by simpa using hcwf)
      rw [totalSamples_cons, totalSamples_nil] at hmcnt
      have hkm : csize ≤ chunk_sample_cnt m := by omega
      obtain ⟨hwf1, hwf2, hcnt1, hcnt2⟩ := split_chunk_wf hw hmwf hkm
      refine ⟨(split_chunk m csize).1, some (split_chunk m csize).2, upstream,
        ?_, hcnt1, ?_, ?_⟩
      · simp only [ecNext]
        rw [if_pos hcs, if_pos hbig, hm]
      · intro x hx
        rcases List.mem_append.1 hx with h1 | h1
        · have hx2 : x = (split_chunk m csize).2 := by simpa using h1
          rw [hx2]; exact hwf2
        · exact hup x h1
      · rw [pendingSamples_some, hcnt2]
        omega
    · obtain ⟨out, cur', up', heq, hcnt, hwf, hpend⟩ :=
        ecLoopNone_ok hw hcs upstream [c] (chunk_sample_cnt c) (by simpa using hcwf) hup
          (by simp [totalSamples]) (by omega) (by omega)
      refine ⟨out, cur', up', ?_, hcnt, hwf, by omega⟩
      simp only [ecNext]
      rw [if_pos hcs, if_neg hbig]
      exact heq

theorem ecNext_err {csize : ℕ} (hcs : 0 < csize)
    (cur : Option AudioChunk) (upstream : List AudioChunk)
    (h : pendingSamples cur upstream < csize) :
    ecNext csize cur upstream = .error .stopAsyncIteration := by
  match cur with
  | none =>
    rw [pendingSamples_none] at h
    exact ecLoopNone_err csize upstream [] 0 (by omega)
  | some c =>
    rw [pendingSamples_some] at h
    simp only [ecNext]
    rw [if_pos hcs, if_neg (by omega)]
    exact ecLoopNone_err csize upstream [c] (chunk_sample_cnt c) (by omega)

theorem ecOutputs_counts {w : ℕ} (hw : 0 < w) {csize : ℕ} (hcs : 0 < csize) :
    ∀ (fuel : ℕ) (cur : Option AudioChunk) (up : List AudioChunk),
      (∀ c ∈ cur.toList, chunkWF w c) → (∀ c ∈ up, chunkWF w c) →
      pendingSamples cur up / csize ≤ fuel →
      (ecOutputs csize fuel cur up).map chunk_sample_cnt =
        List.replicate (pendingSamples cur up / csize) csize
  | 0, cur, up, _, _, hfuel => by
    rw [Nat.le_zero.1 hfuel]
    simp [ecOutputs]
  | fuel + 1, cur, up, hcur, hup, hfuel => by
    by_cases h : csize ≤ pendingSamples cur up
    · obtain ⟨out, cur', up', heq, hcnt, hwf, hpend⟩ :=
        ecNext_ok hw hcs cur up hcur hup h
      have hdiv : pendingSamples cur up / csize = pendingSamples cur' up' / csize + 1 := by
        rw [← hpend, Nat.add_div_right _ hcs]
      have hwf1 : ∀ c ∈ cur'.toList, chunkWF w c :=
        fun c hc => hwf c (List.mem_append.2 (Or.inl hc))
      have hwf2 : ∀ c ∈ up', chunkWF w c :=
        fun c hc => hwf c (List.mem_append.2 (Or.inr hc))
      have hrec := ecOutputs_counts hw hcs fuel cur' up' hwf1 hwf2 (by omega)
      simp only [ecOutputs]
      rw [heq]
      simp only [List.map_cons, hrec, hdiv, List.replicate_succ, hcnt]
    · rw [Nat.div_eq_of_lt (by omega)]
      simp only [ecOutputs]
      rw [ecNext_err hcs cur up (by omega)]
      simp

theorem check_squelch_nil (level : ℚ) (trig : Bool) :
    check_squelch level trig [] = .error .indexError := rfl

theorem sortAsc_length (l : List ℕ) : (sortAsc l).length = l.length := by
  simp [sortAsc, List.length_insertionSort]

theorem mapRms_length (widthOf : AudioChunk → ℕ) :
    ∀ (chunks : List AudioChunk) (vals : List ℕ),
      mapRms widthOf chunks = .ok vals → vals.length = chunks.length
  | [], vals, h => by
    simp only [mapRms, Except.ok.injEq] at h
    rw [← h]
    rfl
  | c :: cs, vals, h => by
    simp only [mapRms] at h
    cases h1 : audioop_rms (widthOf c) c.audio with
    | error e => rw [h1] at h; exact Except.noConfusion h
    | ok v =>
      rw [h1] at h
      cases h2 : mapRms widthOf cs with
      | error e => rw [h2] at h; exact Except.noConfusion h
      | ok vs =>
        rw [h2, Except.ok.injEq] at h
        have := mapRms_length widthOf cs vs h2
        rw [← h]
        simp [this]

theorem mapRms_ok_of_valid (widthOf : AudioChunk → ℕ) :
    ∀ (chunks : List AudioChunk),
      (∀ c ∈ chunks, 1 ≤ widthOf c ∧ widthOf c ≤ 4 ∧ c.audio.length % widthOf c = 0) →
      ∃ vals, mapRms widthOf chunks = .ok vals
  | [], _ => ⟨[], rfl⟩
  | c :: cs, h => by
    obtain ⟨h1, h2, h3⟩ := h c (List.mem_cons_self c cs)
    have hok : ∃ v, audioop_rms (widthOf c) c.audio = .ok v := by
      unfold audioop_rms
      rw [if_neg (by omega), if_neg (by simp [h3])]
      dsimp only
      split_ifs <;> exact ⟨_, rfl⟩
    obtain ⟨v, hv⟩ := hok
    obtain ⟨vals, hvals⟩ :=
      mapRms_ok_of_valid widthOf cs (fun x hx => h x (List.mem_cons_of_mem c hx))
    exact ⟨v :: vals, by simp only [mapRms, hv, hvals]⟩

theorem sortAsc_median_some {vals : List ℕ} (hne : vals ≠ []) :
    (sortAsc vals)[vals.length / 2]? = some (medianOf vals) := by
  have hpos : 0 < vals.length := List.length_pos.2 hne
  have hidx : vals.length / 2 < (sortAsc vals).length := by
    rw [sortAsc_length]
    exact Nat.div_lt_self hpos one_lt_two
  rw [List.getElem?_eq_getElem hidx, medianOf, List.getD_eq_getElem _ 0 hidx]

theorem rmsList_ok_ne_nil {chunks : List AudioChunk} {vals : List ℕ}
    (hv : rmsList chunks = .ok vals) (hne : chunks ≠ []) : vals ≠ [] := by
  have hlen := mapRms_length (fun c => c.width) chunks vals hv
  intro h
  rw [h] at hlen
  exact hne (List.length_eq_zero.1 hlen.symm)

theorem check_squelch_silent_eq (level : ℚ) {chunks : List AudioChunk} {vals : List ℕ}
    (hv : rmsList chunks = .ok vals) (hne : chunks ≠ []) :
    check_squelch level false chunks =
      (if level < ((medianOf vals : ℕ) : ℚ) then .ok true else .ok false) := by
  simp only [check_squelch, hv, sortAsc_median_some (rmsList_ok_ne_nil hv hne)]
  simp

theorem check_squelch_triggered_eq (level : ℚ) {chunks : List AudioChunk} {vals : List ℕ}
    (hv : rmsList chunks = .ok vals) (hne : chunks ≠ []) :
    check_squelch level true chunks =
      (if ((medianOf vals : ℕ) : ℚ) < level * (4 / 5) then .ok false else .ok true) := by
  simp only [check_squelch, hv, sortAsc_median_some (rmsList_ok_ne_nil hv hne)]
  simp

theorem riPush_ne_nil {n : ℕ} (hn : 0 < n) (b : List AudioChunk) (x : AudioChunk) :
    riPush n b x ≠ [] := by
  intro h
  have := congrArg List.length h
  simp only [riPush, lastN, List.length_drop, List.length_append,
    List.length_cons, List.length_nil] at this
  omega

theorem squelchScan_ok_shape (level : ℚ) (n : ℕ) :
    ∀ (pending buff : List AudioChunk) (blk : SBState),
      squelchScan level n pending buff = .ok blk →
      blk.sent_mem = false ∧ blk.src.buff ≠ [] ∧ blk.src.buff.length ≤ n
  | [], _, blk, h => by simp [squelchScan] at h
  | c :: rest, buff, blk, h => by
    cases hcs : check_squelch level false (riPush n buff c) with
    | error e =>
      simp only [squelchScan, hcs] at h
      exact Except.noConfusion h
    | ok b =>
      cases b with
      | true =>
        simp only [squelchScan, hcs, Except.ok.injEq] at h
        subst h
        refine ⟨rfl, ?_, riPush_length_le n buff c⟩
        intro hnil
        have hnil' : riPush n buff c = [] := hnil
        rw [hnil', check_squelch_nil] at hcs
        exact Except.noConfusion hcs
      | false =>
        simp only [squelchScan, hcs] at h
        exact squelchScan_ok_shape level n rest (riPush n buff c) blk h

theorem rcThreadedSpec_meta {σ : Type}
    (ratecv : List ℕ → ℕ → ℕ → ℕ → ℕ → Option σ → List ℕ × σ) (nch outRate : ℕ) :
    ∀ (src : List AudioChunk) (st : Option σ),
      (rcThreadedSpec ratecv nch outRate st src).map
          (fun c => (c.start_time, c.width, c.freq)) =
        src.map fun c => (c.start_time, 2, outRate)
  | [], _ => rfl
  | c :: rest, st => by
    simp only [rcThreadedSpec, List.map_cons]
    rw [rcThreadedSpec_meta ratecv nch outRate rest]

/-- Claim C4: for every chunk and every valid sample offset `k` (with
positive width), merging the two halves of `split_chunk` reproduces the
original chunk exactly; both halves retain `start_time`, `width` and
`freq`, and the split is made at byte offset `k * width`. -/
theorem merge_split_roundtrip (c : AudioChunk) (k : ℕ) (hw : 0 < c.width)
    (hk : k ≤ chunk_sample_cnt c) :
    merge_chunks [(split_chunk c k).1, (split_chunk c k).2] = .ok c ∧
    (split_chunk c k).1.start_time = c.start_time ∧
    (split_chunk c k).1.width = c.width ∧ (split_chunk c k).1.freq = c.freq ∧
    (split_chunk c k).2.start_time = c.start_time ∧
    (split_chunk c k).2.width = c.width ∧ (split_chunk c k).2.freq = c.freq ∧
    (split_chunk c k).1.audio.length = k * c.width := by
  obtain ⟨t, a, w, f⟩ := c
  have hkw : k * w ≤ a.length := (Nat.le_div_iff_mul_le hw).1 hk
  refine ⟨?_, rfl, rfl, rfl, rfl, rfl, rfl, ?_⟩
  · simp [merge_chunks, split_chunk, List.take_append_drop]
  · simp only [split_chunk, List.length_take]
    exact Nat.min_eq_left hkw

/-- Witness for C4 at a concrete two-byte, width-2 chunk split at sample 1. -/
theorem merge_split_roundtrip_witness :
    merge_chunks [(split_chunk (sampleChunk 1) 1).1, (split_chunk (sampleChunk 1) 1).2] =
      .ok (sampleChunk 1) :=
  (merge_split_roundtrip (sampleChunk 1) 1 (by decide) (by decide)).1

/-- Claim C5: the `ended` flag of a block is monotone (no block operation
clears it), and once it is set every iteration step terminates with the
stream-exhaustion condition and yields no chunk, leaving the state
unchanged. -/
theorem block_ended_monotonic (b : ABlock) (op : BlockOp) (h : b.stopped = true) :
    (applyOp op b).stopped = true ∧
    blockNext b = (.error .stopAsyncIteration, b) := by
  constructor
  · cases op
    · rfl
    · simp [applyOp, blockNext, h]
  · simp [blockNext, h]

/-- Witness for C5 on a concrete ended block. -/
theorem block_ended_monotonic_witness :
    (applyOp .opNext ⟨true, []⟩).stopped = true ∧
    blockNext ⟨true, []⟩ = (.error .stopAsyncIteration, ⟨true, []⟩) :=
  block_ended_monotonic ⟨true, []⟩ .opNext rfl

/-- Claim C9 counterexample: starting a squelch processor with an unset
`squelch_level` fails with the generic `AssertionError` of a failed
`assert`, not with a distinct identifiable error kind. -/
theorem squelched_start_is_generic_assertion :
    squelched_start none = .error .assertionError := rfl

/-- Claim C9 (amended): starting with `squelch_level` unset fails, but the
failure is the generic assertion error, and starting with any set level
passes the check. -/
theorem squelched_start_requires_level (lv : Option ℚ) :
    (squelched_start lv = .error .assertionError ↔ lv = none) ∧
    (squelched_start lv = .ok () ↔ lv ≠ none) := by
  cases lv <;> simp [squelched_start]

/-- Claim C10 counterexample: a non-empty window is not enough for
`check_squelch` to return a boolean: a window holding one chunk whose
recorded width is outside the sizes `audioop` accepts makes the RMS
computation raise `audioop.error`, so no boolean is returned. -/
theorem check_squelch_error_on_nonempty :
    ([badWidthChunk] : List AudioChunk) ≠ [] ∧
    check_squelch 1 false [badWidthChunk] = .error .audioopError ∧
    ∀ b : Bool, check_squelch 1 false [badWidthChunk] ≠ .ok b := by
  refine ⟨by decide, by decide, fun b => ?_⟩
  cases b <;> decide

/-- Claim C10 (amended): `check_squelch` returns a boolean on every
non-empty window whose chunks all have an `audioop`-supported width (1 to
4 bytes) and a whole number of frames — there the median index
`⌊K * 0.5⌋` is in bounds for `K ≥ 1` values — while on the empty list the
median computation indexes an empty list and raises `IndexError`; a
non-empty window violating the width or framing condition instead raises
`audioop.error`. -/
theorem check_squelch_total_on_valid_windows (level : ℚ) (trig : Bool)
    (chunks : List AudioChunk) :
    (chunks ≠ [] →
      (∀ c ∈ chunks, 1 ≤ c.width ∧ c.width ≤ 4 ∧ c.audio.length % c.width = 0) →
      ∃ b, check_squelch level trig chunks = .ok b) ∧
    check_squelch level trig [] = .error .indexError := by
  refine ⟨fun hne hval => ?_, check_squelch_nil level trig⟩
  obtain ⟨vals, hv⟩ := mapRms_ok_of_valid (fun c => c.width) chunks hval
  have hv' : rmsList chunks = .ok vals := hv
  cases trig
  · rw [check_squelch_silent_eq level hv' hne]
    split_ifs <;> exact ⟨_, rfl⟩
  · rw [check_squelch_triggered_eq level hv' hne]
    split_ifs <;> exact ⟨_, rfl⟩

/-- Witness for C10 on a concrete valid singleton window. -/
theorem check_squelch_total_on_valid_windows_witness :
    ∃ b, check_squelch 1 false [sampleChunk 1] = .ok b :=
  (check_squelch_total_on_valid_windows 1 false [sampleChunk 1]).1 (by decide) (by decide)

/-- Claim C7: the sliding-window buffer of capacity `n`, after `k` pulls
(each of which pushes the pulled item), holds exactly the last
`min k n` pushed items in push order, and reading the memory does not
change the state. -/
theorem remembering_iterator_window (n : ℕ) (xs : List AudioChunk) (k : ℕ)
    (hk : k ≤ xs.length) :
    (riRunState n ⟨xs, []⟩ k).buff = (xs.take k).drop (k - n) ∧
    ((riRunState n ⟨xs, []⟩ k).buff).length = min k n ∧
    ∀ s : RIState, riMemory s = (s.buff, s) := by
  have h1 : (riRunState n ⟨xs, []⟩ k).buff = lastN n (xs.take k) := by
    rw [riRunState_buff n k xs [] hk, foldl_riPush n (xs.take k) [] (by simp)]
    simp
  have hlen : (xs.take k).length = k := by
    rw [List.length_take]; omega
  refine ⟨?_, ?_, fun s => rfl⟩
  · rw [h1, lastN, hlen]
  · rw [h1, lastN, List.length_drop, hlen]
    omega

/-- Witness for C7: capacity 2, three pulls out of a three-chunk upstream. -/
theorem remembering_iterator_window_witness :
    (riRunState 2 ⟨scenarioUpstream, []⟩ 3).buff = (scenarioUpstream.take 3).drop (3 - 2) :=
  (remembering_iterator_window 2 scenarioUpstream 3 (by decide)).1

/-- Claim C8: within one rate-converted block the resampler filter state
produced by converting a chunk is the input state of the next conversion
(the run of the block equals the state-threading fold, for any resampler),
and every output chunk carries the input start time, width 2 and the
target frequency. -/
theorem rate_convert_threads_state {σ : Type}
    (ratecv : List ℕ → ℕ → ℕ → ℕ → ℕ → Option σ → List ℕ × σ) (nch outRate : ℕ) :
    ∀ (src : List AudioChunk) (st : Option σ) (fuel : ℕ), src.length ≤ fuel →
      rcRun ratecv nch outRate fuel src st = rcThreadedSpec ratecv nch outRate st src ∧
      (rcThreadedSpec ratecv nch outRate st src).map
          (fun c => (c.start_time, c.width, c.freq)) =
        src.map fun c => (c.start_time, 2, outRate)
  | [], st, fuel, _ => by
    cases fuel <;> simp [rcRun, rcNextChunk, rcThreadedSpec]
  | c :: rest, st, fuel, hf => by
    refine ⟨?_, rcThreadedSpec_meta ratecv nch outRate (c :: rest) st⟩
    match fuel with
    | 0 => simp at hf
    | f + 1 =>
      simp only [rcRun, rcNextChunk, rcThreadedSpec]
      have hr := rate_convert_threads_state ratecv nch outRate rest
        (some (ratecv c.audio 2 nch c.freq outRate st).2) f (by simpa using hf)
      rw [hr.1]

/-- Witness for C8 with a concrete chunk-counting resampler. -/
theorem rate_convert_threads_state_witness :
    rcRun demoRatecv 1 16000 2 demoSrc none = rcThreadedSpec demoRatecv 1 16000 none demoSrc :=
  (rate_convert_threads_state demoRatecv 1 16000 demoSrc none 2 (by decide)).1

/-- Claim C6: whenever the squelch scan fires and returns a block, that
block has not yet sent its memory, its window holds at most
`prefix_samples` chunks, and its first delivered chunk is exactly the
merge of the sliding pre-roll window it holds, before any streamed chunk. -/
theorem squelched_block_first_chunk (level : ℚ) (n : ℕ)
    (pending buff : List AudioChunk) (blk : SBState)
    (h : squelchScan level n pending buff = .ok blk) :
    blk.sent_mem = false ∧ blk.src.buff.length ≤ n ∧
    ∃ m, merge_chunks blk.src.buff = .ok m ∧
      sbNextChunk n blk = .ok (m, ⟨true, blk.src, blk.level⟩) := by
  obtain ⟨hsm, hne, hlen⟩ := squelchScan_ok_shape level n pending buff blk h
  refine ⟨hsm, hlen, ?_⟩
  obtain ⟨c, cs, hbuff⟩ := List.exists_cons_of_ne_nil hne
  have hm : ∃ m, merge_chunks blk.src.buff = .ok m := by
    rw [hbuff]; exact ⟨_, rfl⟩
  obtain ⟨m, hm⟩ := hm
  refine ⟨m, hm, ?_⟩
  simp only [sbNextChunk, hsm, if_true, hm]

/-- Witness for C6: a scan over one loud chunk fires immediately. -/
theorem squelched_block_first_chunk_witness :
    demoSB.sent_mem = false ∧ demoSB.src.buff.length ≤ 1 ∧
    ∃ m, merge_chunks demoSB.src.buff = .ok m ∧
      sbNextChunk 1 demoSB = .ok (m, ⟨true, demoSB.src, demoSB.level⟩) :=
  squelched_block_first_chunk 10 1 [sampleChunk 100] [] demoSB (by decide)

/-- Claim C1 (amended): for a positive `chunk_size` and a uniform-width
upstream, the resegmenting iterator yields only chunks of exactly
`chunk_size` samples; when the upstream is exhausted with fewer than
`chunk_size` samples pending those samples are discarded, so exactly
`⌊T / chunk_size⌋` chunks are yielded and the total yielded is
`chunk_size * ⌊T / chunk_size⌋` of the `T` upstream samples. -/
theorem even_chunk_iterator_exact_sizes (w csize : ℕ) (hw : 0 < w) (hcs : 0 < csize)
    (upstream : List AudioChunk) (hup : ∀ c ∈ upstream, chunkWF w c)
    (fuel : ℕ) (hfuel : totalSamples upstream / csize ≤ fuel) :
    (ecOutputs csize fuel none upstream).map chunk_sample_cnt =
      List.replicate (totalSamples upstream / csize) csize ∧
    totalSamples (ecOutputs csize fuel none upstream) =
      csize * (totalSamples upstream / csize) := by
  have h1 := ecOutputs_counts hw hcs fuel none upstream (by simp) hup
    (by rw [pendingSamples_none]; exact hfuel)
  rw [pendingSamples_none] at h1
  refine ⟨h1, ?_⟩
  rw [totalSamples, h1, List.sum_replicate, smul_eq_mul, Nat.mul_comm]

set_option maxRecDepth 8000 in
/-- Witness for C1 (amended) on the 100/100/100 at 160 scenario: exactly
`⌊300 / 160⌋ = 1` chunk of 160 samples is yielded. -/
theorem even_chunk_iterator_exact_sizes_witness :
    (ecOutputs 160 5 none scenarioUpstream).map chunk_sample_cnt =
      List.replicate (totalSamples scenarioUpstream / 160) 160 :=
  (even_chunk_iterator_exact_sizes 2 160 (by decide) (by decide) scenarioUpstream
    (by decide) 5 (by decide)).1

set_option maxRecDepth 8000 in
/-- Claim C1 counterexample: on the concrete scenario (three upstream
chunks of 100 samples at width 2, `chunk_size = 160`) the iterator yields
a single 160-sample chunk and then raises; no final shorter chunk appears
and the yielded total (160) differs from the 300 samples consumed. -/
theorem even_chunk_iterator_drops_tail :
    (ecOutputs 160 5 none scenarioUpstream).map chunk_sample_cnt = [160] ∧
    totalSamples scenarioUpstream = 300 ∧
    totalSamples (ecOutputs 160 5 none scenarioUpstream) ≠ totalSamples scenarioUpstream := by
  refine ⟨by decide, by decide, by decide⟩

/-- Claim C2: hysteresis of `check_squelch`: in the silent state it
triggers exactly when the median RMS strictly exceeds the level; in the
triggered state it de-triggers exactly when the median RMS falls strictly
below `0.8 * level` and stays triggered otherwise; and the RMS sequence
`[0.5 L, 0.95 L, 1.2 L, 0.85 L, 0.7 L]` (here `L = 100`) produces the
state sequence silent, silent, triggered, triggered, silent. -/
theorem check_squelch_hysteresis :
    (∀ (level : ℚ) (chunks : List AudioChunk) (vals : List ℕ),
      rmsList chunks = .ok vals → chunks ≠ [] →
      ((check_squelch level false chunks = .ok true ↔
        level < ((medianOf vals : ℕ) : ℚ)) ∧
       (check_squelch level true chunks = .ok false ↔
        ((medianOf vals : ℕ) : ℚ) < level * (4 / 5)) ∧
       (check_squelch level true chunks = .ok true ↔
        level * (4 / 5) ≤ ((medianOf vals : ℕ) : ℚ)))) ∧
    squelchStates 100 false scenarioWindows = [false, false, true, true, false] := by
  constructor
  · intro level chunks vals hv hne
    rw [check_squelch_silent_eq level hv hne, check_squelch_triggered_eq level hv hne]
    refine ⟨?_, ?_, ?_⟩
    · split_ifs with h <;> simp [h]
    · split_ifs with h <;> simp [h]
    · split_ifs with h
      · simp [not_le.2 h]
      · simp [not_lt.1 h]
  · have h50 : check_squelch 100 false [sampleChunk 50] = .ok false := by
      have h : rmsList [sampleChunk 50] = .ok [50] := by decide
      simp only [check_squelch, h]
      norm_num [sortAsc, List.insertionSort]
    have h95 : check_squelch 100 false [sampleChunk 95] = .ok false := by
      have h : rmsList [sampleChunk 95] = .ok [95] := by decide
      simp only [check_squelch, h]
      norm_num [sortAsc, List.insertionSort]
    have h120 : check_squelch 100 false [sampleChunk 120] = .ok true := by
      have h : rmsList [sampleChunk 120] = .ok [120] := by decide
      simp only [check_squelch, h]
      norm_num [sortAsc, List.insertionSort]
    have h85 : check_squelch 100 true [sampleChunk 85] = .ok true := by
      have h : rmsList [sampleChunk 85] = .ok [85] := by decide
      simp only [check_squelch, h]
      norm_num [sortAsc, List.insertionSort]
    have h70 : check_squelch 100 true [sampleChunk 70] = .ok false := by
      have h : rmsList [sampleChunk 70] = .ok [70] := by decide
      simp only [check_squelch, h]
      norm_num [sortAsc, List.insertionSort]
    simp [scenarioWindows, squelchStates, h50, h95, h120, h85, h70]

/-- Witness for C2 on a concrete singleton window at level 100. -/
theorem check_squelch_hysteresis_witness :
    check_squelch 100 false [sampleChunk 120] = .ok true ↔
      (100 : ℚ) < ((medianOf [120] : ℕ) : ℚ) :=
  (check_squelch_hysteresis.1 100 [sampleChunk 120] [120] (by decide) (by decide)).1

/-- Claim C3: calibration keeps only chunks of byte length exactly
`sample_size * sample_width`, sorts their RMS values ascending and selects
the value at index `⌊threshold * N⌋`; on the ten RMS values
`10, ..., 100` (plus one wrong-length chunk that is discarded) with the
default threshold `0.8` it selects `90`. -/
theorem detect_squelch_level_spec :
    (∀ (ss sw : ℕ) (θ : ℚ) (chunks : List AudioChunk) (vals : List ℕ),
      calibRmsVals ss sw chunks = .ok vals →
      Int.toNat ⌊θ * (vals.length : ℕ)⌋ < vals.length →
      detect_squelch_level ss sw θ chunks =
        .ok ((sortAsc vals).getD (Int.toNat ⌊θ * (vals.length : ℕ)⌋) 0)) ∧
    detect_squelch_level 1 2 (4 / 5) calibChunks = .ok 90 := by
  constructor
  · intro ss sw θ chunks vals hcal h
    have hlt : Int.toNat ⌊θ * (vals.length : ℕ)⌋ < (sortAsc vals).length := by
      rw [sortAsc_length]; exact h
    simp only [detect_squelch_level, hcal, List.drop_eq_getElem_cons hlt,
      List.getD_eq_getElem _ 0 hlt]
  · have hcal : calibRmsVals 1 2 calibChunks =
        .ok [30, 10, 100, 50, 20, 90, 60, 40, 80, 70] := by decide
    have hidx : Int.toNat ⌊(4 / 5 : ℚ) *
        (([30, 10, 100, 50, 20, 90, 60, 40, 80, 70] : List ℕ).length : ℕ)⌋ = 8 := by
      have hl : ([30, 10, 100, 50, 20, 90, 60, 40, 80, 70] : List ℕ).length = 10 := by decide
      rw [hl]
      have h8 : ⌊(4 / 5 : ℚ) * ((10 : ℕ) : ℚ)⌋ = 8 := by norm_num
      rw [h8]
      decide
    simp only [detect_squelch_level, hcal, hidx]
    decide

/-- Witness for C3: the general selection rule applied to the calibration
scenario. -/
theorem detect_squelch_level_spec_witness :
    detect_squelch_level 1 2 (4 / 5) calibChunks =
      .ok ((sortAsc [30, 10, 100, 50, 20, 90, 60, 40, 80, 70]).getD
        (Int.toNat ⌊(4 / 5 : ℚ) *
          (([30, 10, 100, 50, 20, 90, 60, 40, 80, 70] : List ℕ).length : ℕ)⌋) 0) :=
  detect_squelch_level_spec.1 1 2 (4 / 5) calibChunks
    [30, 10, 100, 50, 20, 90, 60, 40, 80, 70] (by decide) (by
      have hl : ([30, 10, 100, 50, 20, 90, 60, 40, 80, 70] : List ℕ).length = 10 := by decide
      rw [hl]
      norm_num [Int.toNat_ofNat])

end STT
